import Mathlib

/-!
Verification of the revert-chain reconciliation pipeline of `analyze_prs.py`
and of the impact-points aggregation of `web_app.py`.

The Python code is shallowly embedded: subjects are `String`/`List Char`,
timestamps are exact rationals (seconds), SQLite tables are association
lists, and the external LLM call is an oracle parameter.  Every definition
is translated from the corresponding Python function, named after it where
Lean permits.
-/

namespace EngCtx

/-! ### Python string primitives used by `extract_original_subject` -/

/-- The whitespace characters removed by Python's `str.strip()`
(modelled as the ASCII whitespace set: space, TAB, LF, VT, FF, CR). -/
def isPySpace (c : Char) : Bool :=
  c = ' ' || c = Char.ofNat 9 || c = Char.ofNat 10 || c = Char.ofNat 11 ||
  c = Char.ofNat 12 || c = Char.ofNat 13

/-- Python `str.strip()` on a list of characters. -/
def pyStrip (l : List Char) : List Char :=
  ((l.dropWhile isPySpace).reverse.dropWhile isPySpace).reverse

/-- Index of the last occurrence of `c` in `l` (Python `str.rfind`,
restricted to the found case; `none` when absent). -/
def lastIdxOf (c : Char) : List Char → Option Nat
  | [] => none
  | x :: xs =>
    match lastIdxOf c xs with
    | some j => some (j + 1)
    | none => if x = c then some 0 else none

/-- The single-quote character, written via its code point. -/
def squote : Char := Char.ofNat 39

/-! ### `extract_original_subject` (analyze_prs.py lines 911-968)

One iteration of the `while True` loop: try the pattern `^[Rr]evert:`
(strip and trim), then `^[Rr]evert ` (unwrap to the *last* matching
double or single quote, or take the remainder verbatim when unquoted).
`some s'` means a strip succeeded and the loop continues on `s'`;
`none` means `matched` stayed false and the loop breaks. -/
def checkRevert (s : List Char) : Option (List Char) :=
  match s with
  | c0 :: c1 :: c2 :: c3 :: c4 :: c5 :: sep :: rest =>
    if (c0 = 'R' || c0 = 'r') && c1 = 'e' && c2 = 'v' && c3 = 'e' && c4 = 'r' && c5 = 't' then
      if sep = ':' then
        some (pyStrip rest)
      else if sep = ' ' then
        match rest with
        | [] => some []
        | q :: tail =>
          if q = '"' then
            match lastIdxOf '"' tail with
            | some j => some (tail.take j)
            | none => none
          else if q = squote then
            match lastIdxOf squote tail with
            | some j => some (tail.take j)
            | none => none
          else
            some (q :: tail)
      else none
    else none
  | _ => none

/-- The recursive stripping loop, with fuel (each successful `checkRevert`
step removes at least seven characters, so `length + 1` fuel below never
runs out).  The boolean is Python's `is_revert` accumulator: true iff at
least one strip succeeded. -/
def extract_original_subject_core : Nat → List Char → List Char × Bool
  | 0, s => (s, false)
  | fuel + 1, s =>
    match checkRevert s with
    | some s2 => ((extract_original_subject_core fuel s2).1, true)
    | none => (s, false)

/-- `extract_original_subject` (analyze_prs.py line 911): recursively
extract the original subject from nested revert titles; returns
`(original_subject, is_revert)`. -/
def extract_original_subject (s : String) : String × Bool :=
  let r := extract_original_subject_core (s.data.length + 1) s.data
  (⟨r.1⟩, r.2)

/-- The normalization step of `filter_revert_chains` (line 987):
`re.sub(r'\s*\(#\d+\)$', '', original_subject)` — strip one trailing
issue reference `(#digits)` together with the whitespace run before it. -/
def stripPRSuffix (l : List Char) : List Char :=
  match l.reverse with
  | ')' :: rest =>
    let ds := rest.takeWhile (fun c => c.isDigit)
    if ds.isEmpty then l
    else
      match rest.drop ds.length with
      | '#' :: '(' :: rest2 => (rest2.dropWhile isPySpace).reverse
      | _ => l
  | _ => l

/-- The grouping key of `filter_revert_chains`: fully unwrapped subject
with the trailing issue reference removed. -/
def normalized_subject (s : String) : List Char :=
  stripPRSuffix (extract_original_subject s).1.data

/-! ### Reconstructed changes (the "PR" dicts of `get_commit_range_details`)

Only the fields consulted by `filter_revert_chains` / `score_prs` are
carried; Python's dict copy in `filter_revert_chains` preserves all other
fields unchanged, which the structure update below mirrors. -/

structure PR where
  merge_hash : String
  merge_subject : String
  merge_date : Rat
  author : String
  impact_score : Option Int := none
  impact_assessment : Option String := none
deriving DecidableEq

def normalizedOf (pr : PR) : List Char := normalized_subject pr.merge_subject

def isRevertOf (pr : PR) : Bool := (extract_original_subject pr.merge_subject).2

def zeroOut (pr : PR) : PR :=
  { pr with impact_score := some 0,
            impact_assessment := some "Part of revert chain - no net impact" }

def chainWalkGo : Bool → Option PR → List PR → Option PR
  | _, final, [] => final
  | state, _, c :: cs =>
    let s2 := if isRevertOf c then !state else true
    chainWalkGo s2 (if s2 then some c else none) cs

def chainWalk (l : List PR) : Option PR := chainWalkGo false none l

def sortByDate (l : List PR) : List PR :=
  List.insertionSort (fun a b => a.merge_date <= b.merge_date) l

def processGroup (commits : List PR) : List PR :=
  if commits.length = 1 then commits
  else
    (sortByDate commits).map fun c =>
      match chainWalk (sortByDate commits) with
      | some f => if c = f then c else zeroOut c
      | none => zeroOut c

def dedupAux {A : Type} [DecidableEq A] (seen : List A) : List A → List A
  | [] => []
  | k :: ks => if k ∈ seen then dedupAux seen ks else k :: dedupAux (k :: seen) ks

def dedupKeys {A : Type} [DecidableEq A] (l : List A) : List A := dedupAux [] l

def filter_revert_chains (pr_data : List PR) : List PR :=
  (dedupKeys (pr_data.map normalizedOf)).flatMap fun k =>
    processGroup (pr_data.filter fun p => normalizedOf p = k)

/-! ### SHA-256 (the `hashlib.sha256(...).hexdigest()` used by `get_prompt_hash`),
over byte lists, all 32-bit words represented as `Nat` reduced mod `2^32`. -/

def w32 (n : Nat) : Nat := n % 4294967296

def rotr32 (n x : Nat) : Nat := x / 2 ^ n + x % 2 ^ n * 2 ^ (32 - n)

def shr32 (n x : Nat) : Nat := x / 2 ^ n

def not32 (x : Nat) : Nat := x ^^^ 4294967295

def bsig0 (x : Nat) : Nat := rotr32 2 x ^^^ rotr32 13 x ^^^ rotr32 22 x
def bsig1 (x : Nat) : Nat := rotr32 6 x ^^^ rotr32 11 x ^^^ rotr32 25 x
def ssig0 (x : Nat) : Nat := rotr32 7 x ^^^ rotr32 18 x ^^^ shr32 3 x
def ssig1 (x : Nat) : Nat := rotr32 17 x ^^^ rotr32 19 x ^^^ shr32 10 x

/-- The 64 SHA-256 round constants of FIPS 180-4, written in decimal. -/
def sha256K : List Nat :=
  [1116352408, 1899447441, 3049323471, 3921009573, 961987163, 1508970993,
   2453635748, 2870763221, 3624381080, 310598401, 607225278, 1426881987,
   1925078388, 2162078206, 2614888103, 3248222580, 3835390401, 4022224774,
   264347078, 604807628, 770255983, 1249150122, 1555081692, 1996064986,
   2554220882, 2821834349, 2952996808, 3210313671, 3336571891, 3584528711,
   113926993, 338241895, 666307205, 773529912, 1294757372, 1396182291,
   1695183700, 1986661051, 2177026350, 2456956037, 2730485921, 2820302411,
   3259730800, 3345764771, 3516065817, 3600352804, 4094571909, 275423344,
   430227734, 506948616, 659060556, 883997877, 958139571, 1322822218,
   1537002063, 1747873779, 1955562222, 2024104815, 2227730452, 2361852424,
   2428436474, 2756734187, 3204031479, 3329325298]

/-- The eight SHA-256 initial hash values of FIPS 180-4, in decimal. -/
def sha256H0 : List Nat :=
  [1779033703, 3144134277, 1013904242, 2773480762, 1359893119,
   2600822924, 528734635, 1541459225]

def toBytesBE (numBytes n : Nat) : List Nat :=
  (List.range numBytes).map fun i => n / 2 ^ (8 * (numBytes - 1 - i)) % 256

def sha256Pad (msg : List Nat) : List Nat :=
  msg ++ [128] ++ List.replicate ((119 - msg.length % 64) % 64) 0 ++ toBytesBE 8 (8 * msg.length)

def wordsOfBlock (block : List Nat) : List Nat :=
  (List.range 16).map fun i =>
    ((block.drop (4 * i)).take 4).foldl (fun acc b => acc * 256 + b) 0

def extendLoop : Nat → List Nat → List Nat
  | 0, w => w
  | n + 1, w =>
    extendLoop n (w ++ [w32 (ssig1 (w.getD (w.length - 2) 0) + w.getD (w.length - 7) 0 +
      ssig0 (w.getD (w.length - 15) 0) + w.getD (w.length - 16) 0)])

def sha256Schedule (block : List Nat) : List Nat := extendLoop 48 (wordsOfBlock block)

def sha256Round (st : List Nat) (kw : Nat × Nat) : List Nat :=
  let a := st.getD 0 0
  let b := st.getD 1 0
  let c := st.getD 2 0
  let d := st.getD 3 0
  let e := st.getD 4 0
  let f := st.getD 5 0
  let g := st.getD 6 0
  let h := st.getD 7 0
  let t1 := w32 (h + bsig1 e + ((e &&& f) ^^^ (not32 e &&& g)) + kw.1 + kw.2)
  let t2 := w32 (bsig0 a + ((a &&& b) ^^^ (a &&& c) ^^^ (b &&& c)))
  [w32 (t1 + t2), a, b, c, w32 (d + t1), e, f, g]

def sha256Block (H : List Nat) (block : List Nat) : List Nat :=
  let st := (sha256K.zip (sha256Schedule block)).foldl sha256Round H
  (H.zip st).map fun p => w32 (p.1 + p.2)

def sha256Words (msg : List Nat) : List Nat :=
  let padded := sha256Pad msg
  ((List.range (padded.length / 64)).map fun i => (padded.drop (64 * i)).take 64).foldl
    sha256Block sha256H0

def hexDigit (n : Nat) : Char := if n < 10 then Char.ofNat (48 + n) else Char.ofNat (87 + n)

def wordToHex (w : Nat) : List Char :=
  (List.range 8).map fun i => hexDigit (w / 16 ^ (7 - i) % 16)

def sha256_hexdigest (msg : List Nat) : String := ⟨(sha256Words msg).flatMap wordToHex⟩

def utf8EncodeCharNat (c : Char) : List Nat :=
  let n := c.toNat
  if n < 128 then [n]
  else if n < 2048 then [192 + n / 64, 128 + n % 64]
  else if n < 65536 then [224 + n / 4096, 128 + n / 64 % 64, 128 + n % 64]
  else [240 + n / 262144, 128 + n / 4096 % 64, 128 + n / 64 % 64, 128 + n % 64]

def utf8Bytes (s : String) : List Nat := s.data.flatMap utf8EncodeCharNat

/-! ### Scoring cache gateway (analyze_prs.py lines 165-207)

`llm_cache` rows; `INSERT OR REPLACE` on the unique `prompt_hash` column
deletes any conflicting row and inserts the new one. -/

def get_prompt_hash (prompt_content model : String) : String :=
  sha256_hexdigest (utf8Bytes (model ++ ":" ++ prompt_content))

structure CacheRow where
  prompt_hash : String
  prompt_content : String
  response_content : String
  model : String
deriving DecidableEq

def get_cached_response (db : List CacheRow) (prompt_content model : String) : Option String :=
  (db.find? fun row => row.prompt_hash = get_prompt_hash prompt_content model).map
    fun row => row.response_content

def cache_response (db : List CacheRow) (prompt_content model response_content : String) :
    List CacheRow :=
  { prompt_hash := get_prompt_hash prompt_content model
    prompt_content := prompt_content
    response_content := response_content
    model := model } ::
  db.filter fun row => ¬row.prompt_hash = get_prompt_hash prompt_content model

/-! ### `score_prs` (analyze_prs.py lines 799-908) -/

/-- The `SCORING_CRITERIA` instructions string (lines 30-53). -/
def SCORING_CRITERIA : String :=
  "\nYou are analyzing a software engineering merge (equivalent to a Pull Request) to determine its impact score.\n\nEvaluate the merge on these criteria and assign an impact score from 1-5:\n\nImpact Score (1-5):\n1 = Very Low Impact: Minor changes, small bug fixes, config tweaks\n2 = Low Impact: Small features, isolated improvements, minor refactoring  \n3 = Medium Impact: Moderate features, some architectural changes, new components\n4 = High Impact: Major features, significant architectural changes, new systems\n5 = Very High Impact: Large-scale changes, major architectural overhauls, new dependencies/frameworks\n\nConsider these factors:\n- Scope: How much of the codebase is affected?\n- Complexity: How technically complex is the implementation?\n- Architectural blast radius: How many systems/components are impacted?\n- New dependencies: Are new frameworks, libraries, or external dependencies introduced?\n\nProvide your assessment in this exact JSON format:\n\x7b\n  \"impact_score\": [1-5],\n  \"impact_assessment\": \"[150-250 character rationale explaining the score based on scope, complexity, blast radius, and dependencies]\"\n\x7d\n"

/-- The prompt assembled by `score_prs` (lines 813-845), restricted to the
`PR` fields carried here; the numeric statistics, commit list and optional
diff of the Python context only vary the prompt text, which the verified
properties treat as opaque. -/
def buildPrompt (pr : PR) : String :=
  SCORING_CRITERIA ++ "\n\n" ++
  "\nMerge Analysis:\n- Subject: " ++ pr.merge_subject ++ "\n- Author: " ++ pr.author ++ "\n" ++
  "\n\nProvide the analysis in the exact JSON format specified above."

/-- The caching / external-call skeleton of `score_prs`: a change already
carrying `impact_score = 0` is skipped before any prompt work (line 805);
otherwise the cache is consulted (a cached empty string is falsy in Python
and falls through to the call, line 849); on a miss the external call is
issued and a non-empty response is cached (lines 855-871).  `llm` is the
external model (`none` = the exception path); the JSON parsing of the
response body is not modelled.  Returns the final cache together with the
list of changes for which an external scoring call was issued. -/
def score_prs_calls (llm : String → Option String) (model : String) :
    List CacheRow → List PR → List CacheRow × List PR
  | db, [] => (db, [])
  | db, pr :: rest =>
    if pr.impact_score = some 0 then
      score_prs_calls llm model db rest
    else
      match get_cached_response db (buildPrompt pr) model with
      | some cached =>
        if cached = "" then
          let db2 := match llm (buildPrompt pr) with
            | some content =>
              if content = "" then db else cache_response db (buildPrompt pr) model content
            | none => db
          ((score_prs_calls llm model db2 rest).1, pr :: (score_prs_calls llm model db2 rest).2)
        else score_prs_calls llm model db rest
      | none =>
        let db2 := match llm (buildPrompt pr) with
          | some content =>
            if content = "" then db else cache_response db (buildPrompt pr) model content
          | none => db
        ((score_prs_calls llm model db2 rest).1, pr :: (score_prs_calls llm model db2 rest).2)

/-! ### `get_commit_range_details` (analyze_prs.py lines 437-620)

The pure tail of the function (lines 536-620), parametrised by the parsed
constituent-commit list returned by the `base..merge` range query; the
git-querying prologue and the degenerate early-return branches for an
empty range output (which require `merge_author_match` and yield zero
statistics) are not needed by the claims below, which assume a non-empty
constituent list. -/

structure RCommit where
  hash : String
  author : String
  date : Rat
deriving DecidableEq

structure RangeDetails where
  author : String
  commits_count : Nat
  development_hours : Rat
  review_hours : Rat
deriving DecidableEq

/-- Python `min(commits, key=lambda x: x['date'])`: first minimum wins ties. -/
def pyMinByDate (h : RCommit) (t : List RCommit) : RCommit :=
  t.foldl (fun acc c => if c.date < acc.date then c else acc) h

/-- Python `max(commits, key=lambda x: x['date'])`: first maximum wins ties. -/
def pyMaxByDate (h : RCommit) (t : List RCommit) : RCommit :=
  t.foldl (fun acc c => if acc.date < c.date then c else acc) h

/-- Python `round(x, ndigits)` rounds half to even; idealised over `Rat`
(the binary-float representation error of CPython is not modelled). -/
def roundHalfEven (x : Rat) : Int :=
  if x - ⌊x⌋ < 1 / 2 then ⌊x⌋
  else if 1 / 2 < x - ⌊x⌋ then ⌊x⌋ + 1
  else if ⌊x⌋ % 2 = 0 then ⌊x⌋ else ⌊x⌋ + 1

/-- Python `round(x, 2)`. -/
def pyRound2 (x : Rat) : Rat := (roundHalfEven (x * 100) : Rat) / 100

def get_commit_range_details (merge_author : String) (merge_date : Rat)
    (users : List String) (pr_commits : List RCommit) : Option RangeDetails :=
  let merge_author_match := merge_author ∈ users
  let user_commits := pr_commits.filter fun c => c.author ∈ users
  if ¬merge_author_match ∧ user_commits = [] then none
  else
    match if user_commits.isEmpty then pr_commits else user_commits with
    | [] =>
      -- fallback branch (lines 586-590): no relevant commits
      some { author := merge_author, commits_count := 0,
             development_hours := 0, review_hours := 0 }
    | first0 :: rest =>
      some { author := (pyMinByDate first0 rest).author
             commits_count := rest.length + 1
             development_hours :=
               pyRound2 (((pyMaxByDate first0 rest).date - (pyMinByDate first0 rest).date) / 3600)
             review_hours :=
               pyRound2 ((merge_date - (pyMaxByDate first0 rest).date) / 3600) }

/-! ### `web_app.py`: impact points (lines 17-27 and 67-69) -/

def IMPACT_WEIGHTS : List (Int × Int) := [(1, 1), (2, 2), (3, 5), (4, 13), (5, 21)]

/-- `IMPACT_WEIGHTS.get(score, 1)`. -/
def calculate_impact_points (score : Int) : Int :=
  ((IMPACT_WEIGHTS.find? fun p => p.1 = score).map fun p => p.2).getD 1

def calculate_total_impact_points (scores : List Int) : Int :=
  (scores.map calculate_impact_points).sum

/-! ### Supporting lemmas for the revert-chain theorems -/

theorem dedupAux_mem {A : Type} [DecidableEq A] (seen l : List A) (x : A) :
    x ∈ dedupAux seen l ↔ x ∈ l ∧ x ∉ seen := by
  induction l generalizing seen with
  | nil => simp [dedupAux]
  | cons k ks ih =>
    rw [dedupAux]
    by_cases hk : k ∈ seen
    · rw [if_pos hk, ih]
      constructor
      · rintro ⟨h1, h2⟩; exact ⟨List.mem_cons_of_mem _ h1, h2⟩
      · rintro ⟨h1, h2⟩
        rcases List.mem_cons.1 h1 with h | h
        · exact absurd (h ▸ hk) h2
        · exact ⟨h, h2⟩
    · rw [if_neg hk]
      constructor
      · intro h
        rcases List.mem_cons.1 h with h | h
        · subst h; exact ⟨List.mem_cons_self _ _, hk⟩
        · rcases (ih _).1 h with ⟨h1, h2⟩
          exact ⟨List.mem_cons_of_mem _ h1, fun hx => h2 (List.mem_cons_of_mem _ hx)⟩
      · rintro ⟨h1, h2⟩
        rcases List.mem_cons.1 h1 with h | h
        · exact h ▸ List.mem_cons_self _ _
        · by_cases hxk : x = k
          · exact hxk ▸ List.mem_cons_self _ _
          · refine List.mem_cons_of_mem _ ((ih _).2 ⟨h, ?_⟩)
            intro hx
            rcases List.mem_cons.1 hx with h3 | h3
            · exact hxk h3
            · exact h2 h3

theorem dedupAux_nodup {A : Type} [DecidableEq A] (seen l : List A) :
    (dedupAux seen l).Nodup := by
  induction l generalizing seen with
  | nil => simp [dedupAux]
  | cons k ks ih =>
    rw [dedupAux]
    by_cases hk : k ∈ seen
    · rw [if_pos hk]; exact ih seen
    · rw [if_neg hk]
      refine List.nodup_cons.2 ⟨fun hmem => ?_, ih _⟩
      exact ((dedupAux_mem _ _ _).1 hmem).2 (List.mem_cons_self _ _)

theorem dedupKeys_mem {A : Type} [DecidableEq A] (l : List A) (x : A) :
    x ∈ dedupKeys l ↔ x ∈ l := by
  rw [dedupKeys, dedupAux_mem]; simp

theorem dedupKeys_nodup {A : Type} [DecidableEq A] (l : List A) :
    (dedupKeys l).Nodup := dedupAux_nodup [] l

theorem perm_flatMap_congr {A B : Type} (ks : List A) (F G : A → List B)
    (h : ∀ k ∈ ks, (F k).Perm (G k)) : (ks.flatMap F).Perm (ks.flatMap G) := by
  induction ks with
  | nil => simp
  | cons k ks ih =>
    simp only [List.flatMap_cons]
    exact (h k (by simp)).append (ih fun k' hk' => h k' (by simp [hk']))

theorem partition_perm {A K : Type} [DecidableEq K] (f : A → K) :
    ∀ (ks : List K) (l : List A), ks.Nodup → (∀ x ∈ l, f x ∈ ks) →
    (ks.flatMap fun k => l.filter fun x => f x = k).Perm l := by
  intro ks
  induction ks with
  | nil =>
    intro l _ hcov
    cases l with
    | nil => simp
    | cons a t => exact absurd (hcov a (by simp)) (by simp)
  | cons k ks ih =>
    intro l hnd hcov
    have hnotin : k ∉ ks := (List.nodup_cons.1 hnd).1
    have hks : ks.Nodup := (List.nodup_cons.1 hnd).2
    simp only [List.flatMap_cons]
    have htail : ∀ k' ∈ ks, (l.filter fun x => f x = k')
        = ((l.filter fun x => ¬(f x = k)).filter fun x => f x = k') := by
      intro k' hk'
      rw [List.filter_filter]
      apply List.filter_congr
      intro x _
      by_cases hx : f x = k'
      · have hkk : ¬(k' = k) := fun h => hnotin (h ▸ hk')
        have hne : ¬(f x = k) := fun hxx => hkk (hx ▸ hxx : k' = k)
        simp [hx, hne, hkk]
      · simp [hx]
    have hcov2 : ∀ x ∈ l.filter fun x => ¬(f x = k), f x ∈ ks := by
      intro x hx
      rcases List.mem_filter.1 hx with ⟨hxl, hxk⟩
      rcases List.mem_cons.1 (hcov x hxl) with h | h
      · exact absurd h (by simpa using hxk)
      · exact h
    have h2 : (ks.flatMap fun k' => l.filter fun x => f x = k').Perm
        (l.filter fun x => ¬(f x = k)) := by
      refine (perm_flatMap_congr ks _ _ fun k' hk' => ?_).trans (ih _ hks hcov2)
      exact (htail k' hk') ▸ List.Perm.refl _
    refine (h2.append_left _).trans ?_
    have := List.filter_append_perm (fun x => decide (f x = k)) l
    simpa using this

theorem processGroup_map_perm {B : Type} (F : PR → B) (hF : ∀ c, F (zeroOut c) = F c)
    (g : List PR) : ((processGroup g).map F).Perm (g.map F) := by
  rw [processGroup]
  by_cases h : g.length = 1
  · rw [if_pos h]
  · rw [if_neg h]
    have hperm : (sortByDate g).Perm g := List.perm_insertionSort _ _
    rw [List.map_map]
    have heq : (sortByDate g).map (F ∘ fun c =>
        match chainWalk (sortByDate g) with
        | some f => if c = f then c else zeroOut c
        | none => zeroOut c) = (sortByDate g).map F := by
      apply List.map_congr_left
      intro c _
      cases chainWalk (sortByDate g) with
      | none => exact hF c
      | some f =>
        by_cases hc : c = f
        · simp [hc]
        · simp [hc, hF]
    rw [heq]
    exact hperm.map F

theorem processGroup_mem (g : List PR) (o : PR) (ho : o ∈ processGroup g) :
    ∃ c ∈ g, o = c ∨ o = zeroOut c := by
  rw [processGroup] at ho
  by_cases h : g.length = 1
  · rw [if_pos h] at ho; exact ⟨o, ho, Or.inl rfl⟩
  · rw [if_neg h] at ho
    rcases List.mem_map.1 ho with ⟨c, hc, hco⟩
    have hcg : c ∈ g := (List.perm_insertionSort _ g).subset hc
    refine ⟨c, hcg, ?_⟩
    cases hwalk : chainWalk (sortByDate g) with
    | none => simp only [hwalk] at hco; exact Or.inr hco.symm
    | some f =>
      simp only [hwalk] at hco
      by_cases hcf : c = f
      · rw [if_pos hcf] at hco; exact Or.inl hco.symm
      · rw [if_neg hcf] at hco; exact Or.inr hco.symm

theorem filter_flatMap {A B : Type} (l : List A) (F : A → List B) (p : B → Bool) :
    (l.flatMap F).filter p = l.flatMap fun a => (F a).filter p := by
  induction l with
  | nil => rfl
  | cons a t ih => simp [List.flatMap_cons, List.filter_append, ih]

theorem flatMap_nil_of {A B : Type} (t : List A) (G : A → List B)
    (h : ∀ k' ∈ t, G k' = []) : t.flatMap G = [] := by
  induction t with
  | nil => rfl
  | cons b u ih =>
    simp only [List.flatMap_cons, h b (by simp), List.nil_append]
    exact ih (fun k' hk' => h k' (List.mem_cons_of_mem _ hk'))

theorem flatMap_single {A B : Type} (ks : List A) (G : A → List B) (k : A)
    (hnd : ks.Nodup) (hk : k ∈ ks) (hz : ∀ k' ∈ ks, k' ≠ k → G k' = []) :
    ks.flatMap G = G k := by
  induction ks with
  | nil => cases hk
  | cons a t ih =>
    simp only [List.flatMap_cons]
    rcases List.mem_cons.1 hk with h | h
    · subst h
      rw [flatMap_nil_of t G (fun k' hk' => hz k' (List.mem_cons_of_mem _ hk')
        (fun hh => (List.nodup_cons.1 hnd).1 (hh ▸ hk'))), List.append_nil]
    · have ha : a ≠ k := fun hh => (List.nodup_cons.1 hnd).1 (hh ▸ h)
      rw [hz a (by simp) ha, List.nil_append]
      exact ih (List.nodup_cons.1 hnd).2 h (fun k' hk' hne => hz k' (by simp [hk']) hne)

theorem normalizedOf_zeroOut (c : PR) : normalizedOf (zeroOut c) = normalizedOf c := rfl

theorem processGroup_key (prs : List PR) (k : List Char) (o : PR)
    (ho : o ∈ processGroup (prs.filter fun p => normalizedOf p = k)) :
    normalizedOf o = k := by
  rcases processGroup_mem _ o ho with ⟨c, hc, rfl | rfl⟩
  · exact of_decide_eq_true (List.mem_filter.1 hc).2
  · exact of_decide_eq_true (List.mem_filter.1 hc).2

theorem filter_revert_chains_restrict (prs : List PR) (k : List Char)
    (hk : k ∈ dedupKeys (prs.map normalizedOf)) :
    (filter_revert_chains prs).filter (fun p => normalizedOf p = k)
      = processGroup (prs.filter fun p => normalizedOf p = k) := by
  rw [filter_revert_chains, filter_flatMap]
  rw [flatMap_single _ _ k (dedupKeys_nodup _) hk (fun k' _ hne => by
    apply List.filter_eq_nil_iff.2
    intro o ho
    simp only [decide_eq_true_eq]
    rw [processGroup_key prs k' o ho]
    exact fun hh => hne hh)]
  apply List.filter_eq_self.2
  intro o ho
  simp only [decide_eq_true_eq]
  exact processGroup_key prs k o ho

theorem processGroup_countP_unscored (g : List PR) (hnd : g.Nodup)
    (huns : ∀ p ∈ g, p.impact_score = none) (hlen : g.length ≠ 1) :
    (processGroup g).countP (fun o => o.impact_score = none) ≤ 1 := by
  rw [processGroup, if_neg hlen, List.countP_map]
  have hsnd : (sortByDate g).Nodup := ((List.perm_insertionSort _ g).nodup_iff).2 hnd
  have hsuns : ∀ p ∈ sortByDate g, p.impact_score = none :=
    fun p hp => huns p ((List.perm_insertionSort _ g).subset hp)
  cases hwalk : chainWalk (sortByDate g) with
  | none => simp [Function.comp_def, zeroOut]
  | some f =>
    have hcnt : List.countP ((fun o => decide (o.impact_score = none)) ∘ fun c =>
        match some f with
        | some f => if c = f then c else zeroOut c
        | none => zeroOut c) (sortByDate g) = List.count f (sortByDate g) := by
      rw [List.count]
      apply List.countP_congr
      intro c hc
      by_cases hcf : c = f
      · subst hcf; simp [hsuns _ hc, Function.comp_def]
      · simp [hcf, zeroOut, Function.comp_def]
    rw [hcnt]
    exact List.nodup_iff_count_le_one.1 hsnd f

theorem processGroup_scored_zero (g : List PR) (huns : ∀ p ∈ g, p.impact_score = none)
    (o : PR) (ho : o ∈ processGroup g) (hne : o.impact_score ≠ none) :
    o.impact_score = some 0 ∧
    o.impact_assessment = some "Part of revert chain - no net impact" := by
  rcases processGroup_mem g o ho with ⟨c, hc, h | h⟩
  · subst h; exact absurd (huns _ hc) hne
  · subst h; exact ⟨rfl, rfl⟩


theorem score_prs_calls_nonzero (llm : String → Option String) (model : String)
    (prs : List PR) : ∀ (db : List CacheRow) (q : PR),
    q ∈ (score_prs_calls llm model db prs).2 → q.impact_score ≠ some 0 := by
  induction prs with
  | nil => intro db q hq; simp [score_prs_calls] at hq
  | cons pr rest ih =>
    intro db q hq
    rw [score_prs_calls] at hq
    by_cases h0 : pr.impact_score = some 0
    · rw [if_pos h0] at hq; exact ih db q hq
    · rw [if_neg h0] at hq
      cases hc : get_cached_response db (buildPrompt pr) model with
      | some cached =>
        simp only [hc] at hq
        by_cases he : cached = ""
        · rw [if_pos he] at hq
          rcases List.mem_cons.1 hq with h | h
          · subst h; exact h0
          · exact ih _ q h
        · rw [if_neg he] at hq; exact ih db q hq
      | none =>
        simp only [hc] at hq
        rcases List.mem_cons.1 hq with h | h
        · subst h; exact h0
        · exact ih _ q h

theorem pyMaxByDate_mem (h : RCommit) (t : List RCommit) : pyMaxByDate h t ∈ h :: t := by
  induction t generalizing h with
  | nil => simp [pyMaxByDate]
  | cons b u ih =>
    have hstep : pyMaxByDate h (b :: u) = pyMaxByDate (if h.date < b.date then b else h) u := rfl
    rw [hstep]
    rcases List.mem_cons.1 (ih (if h.date < b.date then b else h)) with hmem | hmem
    · rw [hmem]
      split
      · exact List.mem_cons_of_mem _ (List.mem_cons_self _ _)
      · exact List.mem_cons_self _ _
    · exact List.mem_cons_of_mem _ (List.mem_cons_of_mem _ hmem)

theorem roundHalfEven_neg (x : Rat) (hx : x < -(1 / 2)) : roundHalfEven x < 0 := by
  have hf : (⌊x⌋ : Rat) ≤ x := Int.floor_le x
  have hneg : ⌊x⌋ < 0 := by
    have h1 : (⌊x⌋ : Rat) < 0 := lt_of_le_of_lt hf (by linarith)
    exact_mod_cast h1
  rw [roundHalfEven]
  split
  · exact hneg
  · next hcond =>
    push_neg at hcond
    split
    · next hcond2 =>
      have h2 : (⌊x⌋ : Rat) < -1 := by linarith
      have h3 : ⌊x⌋ < -1 := by exact_mod_cast h2
      omega
    · next hcond2 =>
      push_neg at hcond2
      have heq : x - ⌊x⌋ = 1 / 2 := le_antisymm hcond2 hcond
      have h2 : (⌊x⌋ : Rat) < -1 := by linarith
      have h3 : ⌊x⌋ < -1 := by exact_mod_cast h2
      split
      · omega
      · omega

theorem pyRound2_neg (q : Rat) (hq : q < -(1 / 200)) : pyRound2 q < 0 := by
  have hx : q * 100 < -(1 / 2) := by linarith
  have h1 : roundHalfEven (q * 100) < 0 := roundHalfEven_neg _ hx
  have h2 : ((roundHalfEven (q * 100) : Int) : Rat) < 0 := by exact_mod_cast h1
  rw [pyRound2]
  exact div_neg_of_neg_of_pos h2 (by norm_num)

/-! ### Sanity: the SHA-256 embedding agrees with the standard test vectors -/

set_option maxRecDepth 40000 in
theorem sha256_empty_vector :
    sha256_hexdigest (utf8Bytes "") =
    "e3b0c44298fc1c149afbf4c8996fb92427ae41e4649b934ca495991b7852b855" := by rfl

set_option maxRecDepth 40000 in
theorem sha256_abc_vector :
    sha256_hexdigest (utf8Bytes "abc") =
    "ba7816bf8f01cfea414140de5dae2223b00361a396177a9cb410ff61f20015ad" := by rfl

/-! ### The claims -/

/-- C4: `extract_original_subject "Revert: Revert: Add X"` returns the
subject `"Add X"` with the revert flag true; on `Revert "Add X (#42)"` it
unwraps to `"Add X (#42)"` using the last double quote, after which the
normalization step strips the trailing issue reference `(#42)`, so the
grouping key is `"Add X"`. -/
theorem C4_extract_nested_and_quoted :
    extract_original_subject "Revert: Revert: Add X" = ("Add X", true) ∧
    extract_original_subject "Revert \"Add X (#42)\"" = ("Add X (#42)", true) ∧
    normalized_subject "Revert \"Add X (#42)\"" = "Add X".data := by
  exact ⟨by decide, by decide, by decide⟩

/-- C5 counterexample: the revert prefixes are *not* matched fully
case-insensitively — `"REVERT: Add X"` is left untouched (flag false)
while `"Revert: Add X"` is stripped, refuting the claim that any casing
of the word revert is stripped exactly as `Revert:` would be. -/
theorem C5_counterexample_upper_revert :
    extract_original_subject "REVERT: Add X" = ("REVERT: Add X", false) ∧
    extract_original_subject "Revert: Add X" = ("Add X", true) := by
  exact ⟨by decide, by decide⟩

/-- C5 (amended): only the first letter of the revert keyword is matched
case-insensitively (`[Rr]evert`): a leading `R` and a leading `r` behave
identically — the single strip step gives the same result for both, and
under the `Revert:` prefix the whole extraction agrees and reports a
revert — but the remaining letters must be exactly `evert` lowercase. -/
theorem C5_amended_first_letter_case_insensitive (rest : List Char) (t : String) :
    checkRevert ('R' :: rest) = checkRevert ('r' :: rest) ∧
    extract_original_subject ⟨'R' :: 'e' :: 'v' :: 'e' :: 'r' :: 't' :: ':' :: t.data⟩
      = extract_original_subject ⟨'r' :: 'e' :: 'v' :: 'e' :: 'r' :: 't' :: ':' :: t.data⟩ ∧
    (extract_original_subject ⟨'R' :: 'e' :: 'v' :: 'e' :: 'r' :: 't' :: ':' :: t.data⟩).2
      = true := by
  refine ⟨?_, ?_⟩
  · match rest with
    | [] => rfl
    | [a] => rfl
    | [a, b] => rfl
    | [a, b, c] => rfl
    | [a, b, c, d] => rfl
    | [a, b, c, d, e] => rfl
    | a :: b :: c :: d :: e :: f :: ts => simp [checkRevert]
  · simp [extract_original_subject, extract_original_subject_core, checkRevert]

/-- C2: a revert-chain group `[Original, Revert, Re-land]` (revert flags
false, true, false) sorted ascending by merge timestamp: the chain walk
selects the re-land entry as the final commit, and `filter_revert_chains`
zero-scores the original and the revert while passing the re-land
through unchanged. -/
theorem C2_original_revert_reland (o r l : PR)
    (hor : normalizedOf o = normalizedOf l) (hrl : normalizedOf r = normalizedOf l)
    (_fo : isRevertOf o = false) (fr : isRevertOf r = true) (fl : isRevertOf l = false)
    (d1 : o.merge_date ≤ r.merge_date) (d2 : r.merge_date ≤ l.merge_date)
    (hol : o ≠ l) :
    chainWalk [o, r, l] = some l ∧
    filter_revert_chains [o, r, l] = [zeroOut o, zeroOut r, l] ∧
    (zeroOut o).impact_score = some 0 ∧ (zeroOut r).impact_score = some 0 := by
  have hrlne : r ≠ l := by intro h; rw [h, fl] at fr; cases fr
  refine ⟨?_, ?_, rfl, rfl⟩
  · simp [chainWalk, chainWalkGo, fr, fl]
  · simp [filter_revert_chains, hor, hrl, dedupKeys, dedupAux, processGroup,
      sortByDate, List.insertionSort, List.orderedInsert, d1, d2,
      chainWalk, chainWalkGo, fr, fl, hol, hrlne]

/-- C2 witness at a concrete chain. -/
theorem C2_witness :
    chainWalk [⟨"h1", "Add X", 0, "alice", none, none⟩,
               ⟨"h2", "Revert \"Add X\"", 1, "bob", none, none⟩,
               ⟨"h3", "Add X (#42)", 2, "alice", none, none⟩]
      = some ⟨"h3", "Add X (#42)", 2, "alice", none, none⟩ ∧
    filter_revert_chains
        [⟨"h1", "Add X", 0, "alice", none, none⟩,
         ⟨"h2", "Revert \"Add X\"", 1, "bob", none, none⟩,
         ⟨"h3", "Add X (#42)", 2, "alice", none, none⟩]
      = [zeroOut ⟨"h1", "Add X", 0, "alice", none, none⟩,
         zeroOut ⟨"h2", "Revert \"Add X\"", 1, "bob", none, none⟩,
         ⟨"h3", "Add X (#42)", 2, "alice", none, none⟩] ∧
    (zeroOut ⟨"h1", "Add X", 0, "alice", none, none⟩).impact_score = some 0 ∧
    (zeroOut ⟨"h2", "Revert \"Add X\"", 1, "bob", none, none⟩).impact_score = some 0 :=
  C2_original_revert_reland _ _ _ (by decide) (by decide) (by decide) (by decide)
    (by decide) (by decide) (by decide) (by decide)

/-- C3: a revert-chain group `[Original, Revert]` sorted ascending by
merge timestamp: the walk ends inactive with no final commit, and both
members are zero-scored by `filter_revert_chains`. -/
theorem C3_original_revert_cancels (o r : PR)
    (hor : normalizedOf o = normalizedOf r)
    (_fo : isRevertOf o = false) (fr : isRevertOf r = true)
    (d1 : o.merge_date ≤ r.merge_date) :
    chainWalk [o, r] = none ∧
    filter_revert_chains [o, r] = [zeroOut o, zeroOut r] ∧
    (zeroOut o).impact_score = some 0 ∧ (zeroOut r).impact_score = some 0 := by
  refine ⟨?_, ?_, rfl, rfl⟩
  · simp [chainWalk, chainWalkGo, fr]
  · simp [filter_revert_chains, hor, dedupKeys, dedupAux, processGroup,
      sortByDate, List.insertionSort, List.orderedInsert, d1,
      chainWalk, chainWalkGo, fr]

/-- C3 witness at a concrete chain. -/
theorem C3_witness :
    chainWalk [⟨"h1", "Add X", 0, "alice", none, none⟩,
               ⟨"h2", "Revert \"Add X\"", 1, "bob", none, none⟩] = none ∧
    filter_revert_chains
        [⟨"h1", "Add X", 0, "alice", none, none⟩,
         ⟨"h2", "Revert \"Add X\"", 1, "bob", none, none⟩]
      = [zeroOut ⟨"h1", "Add X", 0, "alice", none, none⟩,
         zeroOut ⟨"h2", "Revert \"Add X\"", 1, "bob", none, none⟩] ∧
    (zeroOut ⟨"h1", "Add X", 0, "alice", none, none⟩).impact_score = some 0 ∧
    (zeroOut ⟨"h2", "Revert \"Add X\"", 1, "bob", none, none⟩).impact_score = some 0 :=
  C3_original_revert_cancels _ _ (by decide) (by decide) (by decide) (by decide)

/-- C9: `filter_revert_chains` never removes a change — the output has the
same length as the input and exactly the same multiset of `merge_hash`
values. -/
theorem C9_no_change_removed (prs : List PR) :
    (filter_revert_chains prs).length = prs.length ∧
    ((filter_revert_chains prs).map PR.merge_hash).Perm (prs.map PR.merge_hash) := by
  have hperm : ((filter_revert_chains prs).map PR.merge_hash).Perm (prs.map PR.merge_hash) := by
    rw [filter_revert_chains, List.map_flatMap]
    have h1 := perm_flatMap_congr (dedupKeys (prs.map normalizedOf))
      (fun k => (processGroup (prs.filter fun p => normalizedOf p = k)).map PR.merge_hash)
      (fun k => (prs.filter fun p => normalizedOf p = k).map PR.merge_hash)
      (fun k _ => processGroup_map_perm PR.merge_hash (fun c => rfl) _)
    refine h1.trans ?_
    rw [← List.map_flatMap]
    exact (partition_perm normalizedOf _ prs (dedupKeys_nodup _)
      (fun x hx => (dedupKeys_mem _ _).2 (List.mem_map_of_mem _ hx))).map _
  refine ⟨?_, hperm⟩
  have := hperm.length_eq
  simpa using this

/-- C8: the cache key is the SHA-256 hex digest of `model ++ ":" ++ prompt`;
a store followed by a lookup of the same (prompt, model) pair returns
exactly the stored response; a second store under the same key replaces
the previous entry wholesale (last write wins, single row per key). -/
theorem C8_cache_roundtrip :
    (∀ p m : String, get_prompt_hash p m = sha256_hexdigest (utf8Bytes (m ++ ":" ++ p))) ∧
    (∀ (db : List CacheRow) (p m r : String),
      get_cached_response (cache_response db p m r) p m = some r) ∧
    (∀ (db : List CacheRow) (p m r1 r2 : String),
      get_cached_response (cache_response (cache_response db p m r1) p m r2) p m = some r2 ∧
      (cache_response (cache_response db p m r1) p m r2).countP
        (fun row => row.prompt_hash = get_prompt_hash p m) = 1) := by
  refine ⟨fun p m => rfl, ?_, ?_⟩
  · intro db p m r
    simp [get_cached_response, cache_response, List.find?]
  · intro db p m r1 r2
    constructor
    · simp [get_cached_response, cache_response, List.find?]
    · simp [cache_response, List.countP_cons, List.countP_filter]

/-- C10: every score outside the 1-5 weight table maps to weight 1; in
particular a zero-scored revert-chain link contributes one impact point
(not zero) to an aggregated total. -/
theorem C10_out_of_table_weight_one (s : Int) (h : s < 1 ∨ 5 < s) (scores : List Int) :
    calculate_impact_points s = 1 ∧ calculate_impact_points 0 = 1 ∧
    calculate_total_impact_points (0 :: scores) = 1 + calculate_total_impact_points scores := by
  refine ⟨?_, rfl, ?_⟩
  · have h1 : ¬((1 : Int) = s) := by omega
    have h2 : ¬((2 : Int) = s) := by omega
    have h3 : ¬((3 : Int) = s) := by omega
    have h4 : ¬((4 : Int) = s) := by omega
    have h5 : ¬((5 : Int) = s) := by omega
    simp [calculate_impact_points, IMPACT_WEIGHTS, List.find?, h1, h2, h3, h4, h5]
  · simp [calculate_total_impact_points, calculate_impact_points, IMPACT_WEIGHTS, List.find?]

/-- C10 witness: score 7 (out of table) weighs 1, and a zero-scored link
adds exactly one point to a total. -/
theorem C10_witness :
    calculate_impact_points 7 = 1 ∧ calculate_impact_points 0 = 1 ∧
    calculate_total_impact_points (0 :: [3]) = 1 + calculate_total_impact_points [3] :=
  C10_out_of_table_weight_one 7 (Or.inr (by omega)) [3]

/-- C6 counterexample: a traditional merge by tracked author "alice" with a
single constituent commit by the untracked "bob" — the claim requires the
primary author to fall back to the merge commit's own author ("alice"),
but the code takes the earliest constituent commit's author ("bob"). -/
theorem C6_counterexample_untracked_constituent :
    (get_commit_range_details "alice" 3700 ["alice"] [⟨"c1", "bob", 100⟩]).map
        RangeDetails.author = some "bob" ∧
    ¬(get_commit_range_details "alice" 3700 ["alice"] [⟨"c1", "bob", 100⟩]).map
        RangeDetails.author = some "alice" := by
  exact ⟨rfl, by decide⟩

/-- C6 (amended): for a non-empty constituent list the primary author is
the author of the earliest tracked-user constituent commit when at least
one constituent is tracked, and otherwise the author of the earliest
constituent commit overall — the merge commit's own author is used only
when the constituent list is empty. -/
theorem C6_amended_primary_author (merge_author : String) (merge_date : Rat)
    (users : List String) (pr_commits : List RCommit) (d : RangeDetails)
    (hne : pr_commits ≠ [])
    (h : get_commit_range_details merge_author merge_date users pr_commits = some d) :
    ((pr_commits.filter fun c => c.author ∈ users) ≠ [] →
      ∃ u0 urest, (pr_commits.filter fun c => c.author ∈ users) = u0 :: urest ∧
        d.author = (pyMinByDate u0 urest).author) ∧
    ((pr_commits.filter fun c => c.author ∈ users) = [] →
      ∃ p0 prest, pr_commits = p0 :: prest ∧
        d.author = (pyMinByDate p0 prest).author) := by
  simp only [get_commit_range_details] at h
  split at h
  · cases h
  · split at h
    · next heq =>
      exfalso
      by_cases hu : (pr_commits.filter fun c => decide (c.author ∈ users)).isEmpty
      · rw [if_pos hu] at heq; exact hne heq
      · rw [if_neg hu] at heq; rw [heq] at hu; exact hu rfl
    · next first0 rest heq =>
      injection h with h2
      subst h2
      constructor
      · intro hfne
        have hu : ¬(pr_commits.filter fun c => decide (c.author ∈ users)).isEmpty := by
          intro hemp
          exact hfne (List.isEmpty_iff.1 hemp)
        rw [if_neg hu] at heq
        exact ⟨first0, rest, heq, rfl⟩
      · intro hfe
        have hu : (pr_commits.filter fun c => decide (c.author ∈ users)).isEmpty :=
          List.isEmpty_iff.2 hfe
        rw [if_pos hu] at heq
        exact ⟨first0, rest, heq, rfl⟩

/-- C7: development and review hours are the (2-decimal rounded) raw
signed differences of timestamps — review hours = merge time minus last
relevant commit time — and negative values are not clamped: whenever
every constituent commit postdates the merge timestamp by more than the
rounding granularity, the resulting review_hours is strictly negative. -/
theorem C7_hours_not_clamped (merge_author : String) (merge_date : Rat)
    (users : List String) (pr_commits : List RCommit) (d : RangeDetails)
    (hne : pr_commits ≠ [])
    (h : get_commit_range_details merge_author merge_date users pr_commits = some d)
    (hskew : ∀ c ∈ pr_commits, merge_date + 19 ≤ c.date) :
    (∃ lastc ∈ pr_commits,
      d.review_hours = pyRound2 ((merge_date - lastc.date) / 3600)) ∧
    d.review_hours < 0 := by
  simp only [get_commit_range_details] at h
  split at h
  · cases h
  · split at h
    · next heq =>
      exfalso
      by_cases hu : (pr_commits.filter fun c => decide (c.author ∈ users)).isEmpty
      · rw [if_pos hu] at heq; exact hne heq
      · rw [if_neg hu] at heq; rw [heq] at hu; exact hu rfl
    · next first0 rest heq =>
      injection h with h2
      subst h2
      have hsub : (first0 :: rest : List RCommit) ⊆ pr_commits := by
        by_cases hu : (pr_commits.filter fun c => decide (c.author ∈ users)).isEmpty
        · rw [if_pos hu] at heq
          exact heq ▸ List.Subset.refl _
        · rw [if_neg hu] at heq
          rw [← heq]
          exact fun x hx => (List.mem_filter.1 hx).1
      have hmem : pyMaxByDate first0 rest ∈ pr_commits := hsub (pyMaxByDate_mem _ _)
      refine ⟨⟨pyMaxByDate first0 rest, hmem, rfl⟩, ?_⟩
      have hd : merge_date - (pyMaxByDate first0 rest).date ≤ -19 := by
        have := hskew _ hmem
        linarith
      apply pyRound2_neg
      have h36 : (merge_date - (pyMaxByDate first0 rest).date) / 3600 ≤ (-19 : Rat) / 3600 :=
        (div_le_div_iff_of_pos_right (by norm_num)).2 hd
      have : ((-19 : Rat) / 3600) < -(1 / 200) := by norm_num
      linarith

/-- C7 witness: merge stamped one hour before the sole constituent commit:
review hours are -1, strictly negative. -/
theorem C7_witness :
    (∃ lastc ∈ ([⟨"c1", "alice", 3600⟩] : List RCommit),
      (⟨"alice", 1, pyRound2 ((3600 - 3600) / 3600),
        pyRound2 ((0 - 3600) / 3600)⟩ : RangeDetails).review_hours
        = pyRound2 ((0 - lastc.date) / 3600)) ∧
    (⟨"alice", 1, pyRound2 ((3600 - 3600) / 3600),
      pyRound2 ((0 - 3600) / 3600)⟩ : RangeDetails).review_hours < 0 :=
  C7_hours_not_clamped "alice" 0 ["alice"] [⟨"c1", "alice", 3600⟩]
    ⟨"alice", 1, pyRound2 ((3600 - 3600) / 3600), pyRound2 ((0 - 3600) / 3600)⟩
    (by decide) rfl
    (by intro c hc
        rcases List.mem_singleton.1 hc with rfl
        norm_num)

/-- C6 witness for the amended statement, at the counterexample input. -/
theorem C6_witness :
    (([⟨"c1", "bob", 100⟩] : List RCommit).filter (fun c => c.author ∈ ["alice"]) ≠ [] →
      ∃ u0 urest,
        ([⟨"c1", "bob", 100⟩] : List RCommit).filter (fun c => c.author ∈ ["alice"])
          = u0 :: urest ∧
        (⟨"bob", 1, pyRound2 ((100 - 100) / 3600),
          pyRound2 ((3700 - 100) / 3600)⟩ : RangeDetails).author
          = (pyMinByDate u0 urest).author) ∧
    (([⟨"c1", "bob", 100⟩] : List RCommit).filter (fun c => c.author ∈ ["alice"]) = [] →
      ∃ p0 prest, ([⟨"c1", "bob", 100⟩] : List RCommit) = p0 :: prest ∧
        (⟨"bob", 1, pyRound2 ((100 - 100) / 3600),
          pyRound2 ((3700 - 100) / 3600)⟩ : RangeDetails).author
          = (pyMinByDate p0 prest).author) :=
  C6_amended_primary_author "alice" 3700 ["alice"] [⟨"c1", "bob", 100⟩]
    ⟨"bob", 1, pyRound2 ((100 - 100) / 3600), pyRound2 ((3700 - 100) / 3600)⟩
    (by decide) rfl

/-- C1 (amended): provided the reconstructed changes are pairwise distinct
(as in the pipeline, where merge hashes are unique keys) and enter the
filter unscored, then for every revert-chain group of size at least 2 at
most one entry of the `filter_revert_chains` output carrying that group's
key is passed on unscored (eligible for external scoring); every entry of
the output that does carry a score carries exactly `impact_score = 0`
with the fixed no-net-impact rationale; and `score_prs` never issues an
external scoring call for a change whose impact score is 0. -/
theorem C1_at_most_one_scored (prs : List PR) (hnd : prs.Nodup)
    (huns : ∀ p ∈ prs, p.impact_score = none)
    (k : List Char) (hk : 2 ≤ (prs.filter fun p => normalizedOf p = k).length)
    (o : PR) (ho : o ∈ (filter_revert_chains prs).filter fun p => normalizedOf p = k)
    (llm : String → Option String) (model : String) (db : List CacheRow)
    (ps : List PR) (q : PR)
    (hq : q ∈ (score_prs_calls llm model db ps).2) :
    ((filter_revert_chains prs).filter fun p => normalizedOf p = k).countP
      (fun p => p.impact_score = none) ≤ 1 ∧
    (o.impact_score ≠ none → o.impact_score = some 0 ∧
      o.impact_assessment = some "Part of revert chain - no net impact") ∧
    q.impact_score ≠ some 0 := by
  have hkmem : k ∈ dedupKeys (prs.map normalizedOf) := by
    cases hfe : prs.filter fun p => normalizedOf p = k with
    | nil => rw [hfe] at hk; simp at hk
    | cons p0 t =>
      have hp0 : p0 ∈ prs.filter fun p => normalizedOf p = k :=
        hfe ▸ List.mem_cons_self _ _
      have hp0f := List.mem_filter.1 hp0
      refine (dedupKeys_mem _ _).2 ?_
      have hkey : normalizedOf p0 = k := of_decide_eq_true hp0f.2
      exact hkey ▸ List.mem_map_of_mem _ hp0f.1
  have hrestrict := filter_revert_chains_restrict prs k hkmem
  have hlen : (prs.filter fun p => normalizedOf p = k).length ≠ 1 := by omega
  refine ⟨?_, ?_, score_prs_calls_nonzero llm model ps db q hq⟩
  · rw [hrestrict]
    exact processGroup_countP_unscored _ (hnd.filter _)
      (fun p hp => huns p (List.mem_filter.1 hp).1) hlen
  · intro hne2
    rw [hrestrict] at ho
    exact processGroup_scored_zero _ (fun p hp => huns p (List.mem_filter.1 hp).1) o ho hne2

/-- C1 counterexample: with two structurally identical changes in a group
of size 2, the final-commit comparison (Python's `commit == final_commit`
on equal dicts) matches both copies, so both members are passed on
unscored — more than one, refuting the claim as stated. -/
theorem C1_counterexample_duplicate_changes :
    2 ≤ (([⟨"a", "Add X", 0, "alice", none, none⟩,
           ⟨"a", "Add X", 0, "alice", none, none⟩] : List PR).filter
          fun p => normalizedOf p = normalized_subject "Add X").length ∧
    ¬((filter_revert_chains
          [⟨"a", "Add X", 0, "alice", none, none⟩,
           ⟨"a", "Add X", 0, "alice", none, none⟩]).filter
          (fun p => normalizedOf p = normalized_subject "Add X")).countP
        (fun p => p.impact_score = none) ≤ 1 := by
  exact ⟨by decide, by decide⟩

/-- C1 witness for the amended statement, on a distinct two-member chain. -/
theorem C1_witness :
    ((filter_revert_chains
        [⟨"h1", "Add X", 0, "alice", none, none⟩,
         ⟨"h2", "Revert \"Add X\"", 1, "bob", none, none⟩]).filter
        fun p => normalizedOf p = normalized_subject "Add X").countP
      (fun p => p.impact_score = none) ≤ 1 ∧
    ((zeroOut ⟨"h1", "Add X", 0, "alice", none, none⟩).impact_score ≠ none →
      (zeroOut ⟨"h1", "Add X", 0, "alice", none, none⟩).impact_score = some 0 ∧
      (zeroOut ⟨"h1", "Add X", 0, "alice", none, none⟩).impact_assessment
        = some "Part of revert chain - no net impact") ∧
    (⟨"h1", "Add X", 0, "alice", none, none⟩ : PR).impact_score ≠ some 0 :=
  C1_at_most_one_scored
    [⟨"h1", "Add X", 0, "alice", none, none⟩,
     ⟨"h2", "Revert \"Add X\"", 1, "bob", none, none⟩]
    (by decide) (by decide) (normalized_subject "Add X") (by decide)
    (zeroOut ⟨"h1", "Add X", 0, "alice", none, none⟩) (by decide)
    (fun _ => none) "gpt-4" [] [⟨"h1", "Add X", 0, "alice", none, none⟩]
    ⟨"h1", "Add X", 0, "alice", none, none⟩ (by decide)

end EngCtx

